import Mathlib

/-!
Shallow embedding of the core relationship-graph pipeline of
`crypto_network_analysis_no_java.py`:

* `preprocess_data`       — `CryptoNetworkAnalyzerNoJava._preprocess_data`
* `analyze_correlation_network` — `CryptoNetworkAnalyzerNoJava.analyze_correlation_network`
* `te_connections`        — the transfer-entropy filtering/ranking block of
                            `identify_highly_correlated_assets`
* `addEdge`/`buildGroups`/`find_asset_combinations`
                          — `CryptoNetworkAnalyzerNoJava._find_asset_combinations`
* `identify_highly_correlated_assets` — the whole result assembly

Modelling conventions:
* Python floats are modelled by `ℚ`; a possibly-NaN float is `Option ℚ`
  (`none` = NaN).  The Python comparison `abs(corr) >= threshold` is false
  whenever `corr` is NaN, which the model makes explicit.
* Python's stable `list.sort(key=..., reverse=True)` is modelled by the
  stable descending insertion sort `sortDesc`.
* Exceptions swallowed by a `try/except` that returns `{}` are modelled by an
  `Option` result (`none` = the empty dict produced by the `except` branch).
-/
namespace CryptoNet

/-! ### Stable descending sort (models Python `list.sort(key=k, reverse=True)`) -/
/-- Insert `x` into `l`, placing it before the first element whose key is not
larger; on equal keys the previously inserted (later-in-original-order)
elements stay behind `x`, which yields the stability of Python's sort. -/
def insertDesc {β : Type} (key : β → ℚ) (x : β) : List β → List β
  | [] => [x]
  | y :: ys => if key y ≤ key x then x :: y :: ys else y :: insertDesc key x ys

/-- Stable sort, descending in `key`; models `l.sort(key=key, reverse=True)`. -/
def sortDesc {β : Type} (key : β → ℚ) : List β → List β
  | [] => []
  | x :: xs => insertDesc key x (sortDesc key xs)

/-! ### Correlation graph construction (`analyze_correlation_network`, lines 266-304) -/
/-- Models the Python comparison `abs(corr) >= threshold` where `corr` may be
NaN (`none`): any comparison with NaN evaluates to `False`. -/
def corrGe (c : Option ℚ) (t : ℚ) : Bool :=
  match c with
  | some x => decide (t ≤ |x|)
  | none => false

/-- The dict appended in `analyze_correlation_network`:
`{'asset1': ..., 'asset2': ..., 'correlation': corr, 'abs_correlation': abs(corr)}`. -/
structure CorrEdge (α : Type) where
  asset1 : α
  asset2 : α
  correlation : ℚ
  abs_correlation : ℚ
deriving DecidableEq

/-- The nested loop `for i in range(n): for j in range(i+1, n):` in
row-major upper-triangle order. -/
def upperPairs (n : Nat) : List (Nat × Nat) :=
  (List.range n).flatMap (fun i => (List.range' (i + 1) (n - (i + 1))).map (fun j => (i, j)))

/-- The edge-collection loop of `analyze_correlation_network`:
`corr = correlation_matrix.iloc[i, j]; if abs(corr) >= threshold: append(...)`.
`M i j = none` models a NaN correlation (e.g. a constant column), for which
the `>=` test is false and no edge is appended.  `cols` maps a column index
to its label (`correlation_matrix.columns[i]`). -/
def corrEdgeAt {α : Type} (M : Nat → Nat → Option ℚ) (t : ℚ) (cols : Nat → α)
    (p : Nat × Nat) : Option (CorrEdge α) :=
  match M p.1 p.2 with
  | some c => if t ≤ |c| then some ⟨cols p.1, cols p.2, c, |c|⟩ else none
  | none => none

/-- The loop body of `analyze_correlation_network` over every upper-triangle
pair, producing the unsorted `highly_correlated` list. -/
def highly_correlated {α : Type} (n : Nat) (M : Nat → Nat → Option ℚ) (t : ℚ)
    (cols : Nat → α) : List (CorrEdge α) :=
  (upperPairs n).filterMap (corrEdgeAt M t cols)

/-- The edge list returned by `analyze_correlation_network`, after
`highly_correlated.sort(key=lambda x: x['abs_correlation'], reverse=True)`. -/
def analyze_corr_edges {α : Type} (n : Nat) (M : Nat → Nat → Option ℚ) (t : ℚ)
    (cols : Nat → α) : List (CorrEdge α) :=
  sortDesc (fun e => e.abs_correlation) (highly_correlated n M t cols)

/-- The `correlation_network` dict built at lines 293-297 (the
`correlation_matrix` entry, pure input data, is omitted). -/
structure CorrelationNetwork (α : Type) where
  highly_correlated_pairs : List (CorrEdge α)
  network_density : ℚ

/-- `analyze_correlation_network`, as seen by its caller: the whole body runs
inside `try/except`, and the only raising operation on well-formed input is
the density division `len(hc) / (n*(n-1)/2)`, a Python `ZeroDivisionError`
whenever the denominator is `0.0` (i.e. `n <= 1`); the `except` branch then
returns the empty dict, modelled as `none`. -/
def analyze_correlation_network {α : Type} (n : Nat) (M : Nat → Nat → Option ℚ)
    (t : ℚ) (cols : Nat → α) : Option (CorrelationNetwork α) :=
  let hc := analyze_corr_edges n M t cols
  let denom : ℚ := ((n : ℚ) * ((n : ℚ) - 1)) / 2
  if denom = 0 then none
  else some ⟨hc, (hc.length : ℚ) / denom⟩

/-! ### Relationship fusion (`_find_asset_combinations`, lines 358-418) -/
/-- The linear scan `for group_id, group in asset_groups.items(): if asset1 in
group or asset2 in group: found_group = group_id; break` — groups are kept in
creation order (Python dicts preserve insertion order). -/
def findGroupIdx {α : Type} [DecidableEq α] (a b : α) : List (Finset α) → Option Nat
  | [] => none
  | g :: gs => if a ∈ g ∨ b ∈ g then some 0 else (findGroupIdx a b gs).map (· + 1)

/-- Processing one edge `(a, b)`: update the first group containing either
endpoint with both endpoints (`asset_groups[found_group].update([a, b])`), or
append a fresh two-element group (`asset_groups[len(asset_groups)] = {a, b}`). -/
def addEdge {α : Type} [DecidableEq α] (gs : List (Finset α)) (a b : α) :
    List (Finset α) :=
  match findGroupIdx a b gs with
  | some k => gs.set k (insert a (insert b (gs.getD k ∅)))
  | none => gs ++ [{a, b}]

/-- The whole grouping loop over an edge list, in the supplied order. -/
def buildGroups {α : Type} [DecidableEq α] (es : List (α × α)) : List (Finset α) :=
  es.foldl (fun gs e => addEdge gs e.1 e.2) []

/-- The dict appended per surviving group:
`{'type': ..., 'assets': list(group), 'size': len(group), 'strength': ...}`. -/
structure AssetCluster (α : Type) where
  ctype : String
  assets : Finset α
  size : Nat
  strength : String

/-- One emitted combination:
`'strength': 'high' if len(group) >= 3 else 'medium'`. -/
def mkCluster {α : Type} (t : String) (g : Finset α) : AssetCluster α :=
  ⟨t, g, g.card, if 3 ≤ g.card then "high" else "medium"⟩

/-- `_find_asset_combinations`: group the correlation pairs and the
transfer-entropy pairs independently, keep groups with `len(group) >= 2`
(correlation-based first, then te-based, each block in creation order). -/
def find_asset_combinations {α : Type} [DecidableEq α]
    (correlated_pairs te_pairs : List (α × α)) : List (AssetCluster α) :=
  ((buildGroups correlated_pairs).filter (fun g => decide (2 ≤ g.card))).map
      (mkCluster "correlation_based")
    ++ ((buildGroups te_pairs).filter (fun g => decide (2 ≤ g.card))).map
      (mkCluster "te_based")

/-! ### Information-flow adapter and result assembly
(`identify_highly_correlated_assets`, lines 306-356) -/
/-- One oracle edge `(source index, target index, strength, optional p-value)`
as returned by `network_results.get_edge_list()`; `pvalue = none` models a
tuple of length ≤ 3 (`edge[3] if len(edge) > 3 else None`). -/
structure RawEdge where
  source : Nat
  target : Nat
  strength : ℚ
  pvalue : Option ℚ
deriving DecidableEq

/-- The dict appended per retained oracle edge:
`{'source': columns[edge[0]], 'target': columns[edge[1]],
'transfer_entropy': edge[2], 'p_value': ...}`. -/
structure FlowConn (α : Type) where
  source : α
  target : α
  transfer_entropy : ℚ
  p_value : Option ℚ
deriving DecidableEq

/-- The conversion of one raw oracle edge into the reported connection. -/
def mkConn {α : Type} (cols : Nat → α) (e : RawEdge) : FlowConn α :=
  ⟨cols e.source, cols e.target, e.strength, e.pvalue⟩

/-- The transfer-entropy block of `identify_highly_correlated_assets`:
`if edge[2] >= te_threshold: append(...)`, then
`te_connections.sort(key=lambda x: x['transfer_entropy'], reverse=True)`. -/
def te_connections {α : Type} (cols : Nat → α) (edges : List RawEdge)
    (thr : ℚ) : List (FlowConn α) :=
  sortDesc (fun c => c.transfer_entropy)
    ((edges.filter (fun e => decide (thr ≤ e.strength))).map (mkConn cols))

/-- The `results` dict assembled by `identify_highly_correlated_assets`
(lines 337-349), with its nested `summary` flattened into fields. -/
structure AnalysisResults (α : Type) where
  correlation_pairs : List (CorrEdge α)
  te_connections : List (FlowConn α)
  asset_combinations : List (AssetCluster α)
  summary_total_assets : Nat
  summary_highly_correlated_pairs : Nat
  summary_te_connections : Nat
  summary_asset_combinations : Nat
  summary_network_density : ℚ

/-- `identify_highly_correlated_assets`: the transfer-entropy block runs only
when `self.network_results is not None` (`nr = none` models a skipped
transfer-entropy analysis); `analyze_correlation_network` may return the
empty dict (`none`), in which case `.get('highly_correlated_pairs', [])` and
`.get('network_density', 0)` supply the defaults. -/
def identify_highly_correlated_assets {α : Type} [DecidableEq α]
    (cols : Nat → α) (n : Nat) (M : Nat → Nat → Option ℚ) (corr_thr : ℚ)
    (nr : Option (List RawEdge)) (te_thr : ℚ) : AnalysisResults α :=
  let tcs : List (FlowConn α) :=
    match nr with
    | some edges => te_connections cols edges te_thr
    | none => []
  let cn := analyze_correlation_network n M corr_thr cols
  let hc : List (CorrEdge α) :=
    match cn with
    | some c => c.highly_correlated_pairs
    | none => []
  let combos := find_asset_combinations
    (hc.map (fun e => (e.asset1, e.asset2)))
    (tcs.map (fun c => (c.source, c.target)))
  { correlation_pairs := hc
    te_connections := tcs
    asset_combinations := combos
    summary_total_assets := n
    summary_highly_correlated_pairs := hc.length
    summary_te_connections := tcs.length
    summary_asset_combinations := combos.length
    summary_network_density :=
      match cn with
      | some c => c.network_density
      | none => 0 }

/-! ### Series preprocessing (`_preprocess_data`, lines 211-224)

The DataFrame is modelled column-major (`List (List K)`, one inner list of
prices per asset) over a linear ordered field `K`; a cell of the processed
matrix is `Option K`, `none` standing for NaN.  `pct_change().dropna()` is
fused into `pct_change_col` (on complete input the only all-NaN row of
`pct_change` is the first one, which `dropna` removes).  The pandas mask
`returns[np.abs(returns) < 3 * returns.std()]` keeps a cell and otherwise
replaces it by NaN (it does not drop rows); `|x| < 3*sigma` is expressed
square-free as `x^2 < 9*var` (equivalent since both sides are nonnegative),
and `std()` is NaN — hence the comparison false — when the column has fewer
than two entries.  Standardization `(returns - returns.mean())/returns.std()`
uses NaN-skipping column statistics; a column whose non-NaN part has fewer
than two values or zero variance comes out all-NaN (0/0 and x/NaN are NaN).
The sample standard deviation itself is irrational in general, so the model
is parametrized by `σf`, constrained in the theorems by `(σf vals)^2 =
sampleVar vals`. -/
/-- Mean as computed by pandas `.mean()` over the listed values. -/
def sampleMean {K : Type} [LinearOrderedField K] (l : List K) : K :=
  l.sum / (l.length : K)

/-- Sample variance (pandas `.std()` squared, `ddof=1`). -/
def sampleVar {K : Type} [LinearOrderedField K] (l : List K) : K :=
  ((l.map (fun x => (x - sampleMean l) ^ 2)).sum) / ((l.length : K) - 1)

/-- `self.price_data.pct_change().dropna()` on one complete price column:
`r[t] = p[t]/p[t-1] - 1`, dropping the first (NaN) row. -/
def pct_change_col {K : Type} [LinearOrderedField K] (p : List K) : List K :=
  (p.zip p.tail).map (fun q => q.2 / q.1 - 1)

/-- `returns[np.abs(returns) < 3 * returns.std()]` on one column: cells
failing the comparison (including every cell when `std()` is NaN, i.e. fewer
than two rows) become NaN in place; no row is dropped. -/
def clip_col {K : Type} [LinearOrderedField K] (r : List K) : List (Option K) :=
  r.map (fun x => if 2 ≤ r.length ∧ x ^ 2 < 9 * sampleVar r then some x else none)

/-- `(returns - returns.mean()) / returns.std()` on one column with
NaN-skipping statistics; `σf` supplies the standard deviation of the non-NaN
values (constrained by `(σf vals)^2 = sampleVar vals` in the theorems). -/
def standardize_col {K : Type} [LinearOrderedField K] (σf : List K → K)
    (c : List (Option K)) : List (Option K) :=
  c.map (fun o => o.bind (fun x =>
    if 2 ≤ (c.filterMap id).length ∧ sampleVar (c.filterMap id) ≠ 0 then
      some ((x - sampleMean (c.filterMap id)) / σf (c.filterMap id))
    else none))

/-- `_preprocess_data`: per-asset returns, elementwise outlier mask,
standardization. -/
def preprocess_data {K : Type} [LinearOrderedField K] (σf : List K → K)
    (tbl : List (List K)) : List (List (Option K)) :=
  tbl.map (fun p => standardize_col σf (clip_col (pct_change_col p)))

/-! ### Theorems -/

theorem insertDesc_perm {β : Type} (key : β → ℚ) (x : β) (l : List β) :
    (insertDesc key x l).Perm (x :: l) := by
  induction l with
  | nil => exact List.Perm.refl _
  | cons y ys ih =>
    by_cases h : key y ≤ key x
    · simp only [insertDesc, if_pos h]
      exact List.Perm.refl _
    · simp only [insertDesc, if_neg h]
      exact (ih.cons y).trans (List.Perm.swap x y ys)

theorem sortDesc_perm {β : Type} (key : β → ℚ) (l : List β) :
    (sortDesc key l).Perm l := by
  induction l with
  | nil => exact List.Perm.refl _
  | cons x xs ih =>
    exact (insertDesc_perm key x (sortDesc key xs)).trans (ih.cons x)

theorem mem_insertDesc {β : Type} {key : β → ℚ} {x a : β} {l : List β} :
    a ∈ insertDesc key x l ↔ a = x ∨ a ∈ l := by
  rw [(insertDesc_perm key x l).mem_iff, List.mem_cons]

theorem insertDesc_sorted {β : Type} {key : β → ℚ} {l : List β} (x : β)
    (h : l.Pairwise (fun a b => key b ≤ key a)) :
    (insertDesc key x l).Pairwise (fun a b => key b ≤ key a) := by
  induction l with
  | nil => simp [insertDesc]
  | cons y ys ih =>
    by_cases hxy : key y ≤ key x
    · simp only [insertDesc, if_pos hxy]
      refine List.Pairwise.cons ?_ h
      intro z hz
      rcases List.mem_cons.mp hz with rfl | hz
      · exact hxy
      · exact le_trans (List.rel_of_pairwise_cons h hz) hxy
    · simp only [insertDesc, if_neg hxy]
      refine List.Pairwise.cons ?_ (ih (List.Pairwise.of_cons h))
      intro z hz
      rcases mem_insertDesc.mp hz with rfl | hz
      · exact le_of_lt (lt_of_not_le hxy)
      · exact List.rel_of_pairwise_cons h hz

theorem sortDesc_sorted {β : Type} (key : β → ℚ) (l : List β) :
    (sortDesc key l).Pairwise (fun a b => key b ≤ key a) := by
  induction l with
  | nil => simp [sortDesc]
  | cons x xs ih => exact insertDesc_sorted x ih

theorem insertDesc_filter_key {β : Type} (key : β → ℚ) (x : β) (l : List β) (k : ℚ) :
    (insertDesc key x l).filter (fun e => decide (key e = k)) =
      if key x = k then x :: l.filter (fun e => decide (key e = k))
      else l.filter (fun e => decide (key e = k)) := by
  induction l with
  | nil =>
    by_cases h : key x = k <;> simp [insertDesc, List.filter_cons, h]
  | cons y ys ih =>
    simp only [insertDesc]
    by_cases hxy : key y ≤ key x
    · rw [if_pos hxy]
      by_cases hx : key x = k <;> simp [List.filter_cons, hx]
    · rw [if_neg hxy]
      simp only [List.filter_cons, ih]
      by_cases hx : key x = k
      · have hy : ¬ (key y = k) := by
          intro hy
          exact hxy (le_of_eq (hy.trans hx.symm))
        simp [hx, hy]
      · simp [hx]

theorem sortDesc_filter_key {β : Type} (key : β → ℚ) (l : List β) (k : ℚ) :
    (sortDesc key l).filter (fun e => decide (key e = k)) =
      l.filter (fun e => decide (key e = k)) := by
  induction l with
  | nil => rfl
  | cons x xs ih =>
    rw [sortDesc, insertDesc_filter_key, ih]
    by_cases hx : key x = k <;> simp [List.filter_cons, hx]

theorem mem_upperPairs {n i j : Nat} : (i, j) ∈ upperPairs n ↔ i < j ∧ j < n := by
  simp only [upperPairs, List.mem_flatMap, List.mem_map, List.mem_range, List.mem_range',
    Prod.mk.injEq]
  constructor
  · rintro ⟨a, ha, b, ⟨c, hc, rfl⟩, rfl, rfl⟩
    omega
  · rintro ⟨hij, hjn⟩
    exact ⟨i, by omega, j, ⟨j - (i + 1), by omega, by omega⟩, rfl, rfl⟩

theorem upperPairs_pairwise (n : Nat) :
    (upperPairs n).Pairwise (fun p q => p.1 < q.1 ∨ (p.1 = q.1 ∧ p.2 < q.2)) := by
  have hrange' : ∀ s m : Nat, (List.range' s m).Pairwise (· < ·) :=
    fun s m => List.pairwise_lt_range' s m
  have hrow : ∀ i : Nat, ((List.range' (i + 1) (n - (i + 1))).map (fun j => (i, j))).Pairwise
      (fun p q => p.1 < q.1 ∨ (p.1 = q.1 ∧ p.2 < q.2)) := by
    intro i
    refine List.Pairwise.map _ ?_ (hrange' (i + 1) (n - (i + 1)))
    intro a b hab
    exact Or.inr ⟨rfl, hab⟩
  have key : ∀ L : List Nat, L.Pairwise (· < ·) →
      (L.flatMap (fun i => (List.range' (i + 1) (n - (i + 1))).map (fun j => (i, j)))).Pairwise
        (fun p q => p.1 < q.1 ∨ (p.1 = q.1 ∧ p.2 < q.2)) := by
    intro L hL
    induction L with
    | nil => simp
    | cons i is ih =>
      simp only [List.flatMap_cons]
      rw [List.pairwise_append]
      refine ⟨hrow i, ih (List.Pairwise.of_cons hL), ?_⟩
      intro p hp q hq
      rcases List.mem_map.mp hp with ⟨a, _, rfl⟩
      rcases List.mem_flatMap.mp hq with ⟨i', hi', hq'⟩
      rcases List.mem_map.mp hq' with ⟨b, _, rfl⟩
      exact Or.inl (List.rel_of_pairwise_cons hL hi')
  rw [upperPairs]
  exact key (List.range n) (List.pairwise_lt_range n)

theorem upperPairs_nodup (n : Nat) : (upperPairs n).Nodup := by
  refine (upperPairs_pairwise n).imp ?_
  rintro ⟨a, b⟩ ⟨c, d⟩ h heq
  rcases h with h | ⟨h1, h2⟩
  · cases heq; omega
  · cases heq; omega

theorem corrEdgeAt_eq_some {α : Type} {M : Nat → Nat → Option ℚ} {t : ℚ}
    {cols : Nat → α} {p : Nat × Nat} {e : CorrEdge α} :
    corrEdgeAt M t cols p = some e ↔
      ∃ c : ℚ, M p.1 p.2 = some c ∧ t ≤ |c| ∧ e = ⟨cols p.1, cols p.2, c, |c|⟩ := by
  constructor
  · intro hf
    unfold corrEdgeAt at hf
    split at hf
    next c hM =>
      split at hf
      next hc => exact ⟨c, hM, hc, (Option.some_inj.mp hf).symm⟩
      next => cases hf
    next hM => cases hf
  · rintro ⟨c, hM, hc, rfl⟩
    unfold corrEdgeAt
    rw [hM]
    simp [hc]

theorem corrEdgeAt_isSome_iff {α : Type} {M : Nat → Nat → Option ℚ} {t : ℚ}
    {cols : Nat → α} {p : Nat × Nat} :
    (∃ e, corrEdgeAt M t cols p = some e) ↔ corrGe (M p.1 p.2) t = true := by
  cases hM : M p.1 p.2 with
  | none => simp [corrEdgeAt, hM, corrGe]
  | some c =>
    by_cases hc : t ≤ |c| <;> simp [corrEdgeAt, hM, corrGe, hc]

theorem mem_highly_correlated {α : Type} {n : Nat} {M : Nat → Nat → Option ℚ}
    {t : ℚ} {cols : Nat → α} {e : CorrEdge α} :
    e ∈ highly_correlated n M t cols ↔
      ∃ i j, i < j ∧ j < n ∧ ∃ c : ℚ, M i j = some c ∧ t ≤ |c| ∧
        e = ⟨cols i, cols j, c, |c|⟩ := by
  simp only [highly_correlated, List.mem_filterMap]
  constructor
  · rintro ⟨⟨i, j⟩, hp, hf⟩
    rcases mem_upperPairs.mp hp with ⟨hij, hjn⟩
    rcases corrEdgeAt_eq_some.mp hf with ⟨c, hM, hc, rfl⟩
    exact ⟨i, j, hij, hjn, c, hM, hc, rfl⟩
  · rintro ⟨i, j, hij, hjn, c, hM, hc, rfl⟩
    exact ⟨(i, j), mem_upperPairs.mpr ⟨hij, hjn⟩,
      corrEdgeAt_eq_some.mpr ⟨c, hM, hc, rfl⟩⟩

/-- C1: for every processed correlation matrix and threshold in `[0,1]`, the
correlation-graph builder emits exactly one edge per unordered column pair
`(i, j)`, `i < j`, whose correlation passes `abs(corr) >= threshold` (false
for NaN, so NaN is never emitted), and returns them sorted descending by
absolute correlation with ties kept in the row-major upper-triangle
enumeration order. -/
theorem correlation_graph_builder_spec {α : Type} (cols : Nat → α)
    (hinj : Function.Injective cols) (n : Nat) (M : Nat → Nat → Option ℚ) (t : ℚ)
    (_h0 : 0 ≤ t) (_h1 : t ≤ 1) :
    (∀ i j, i < j → j < n →
      ((∃ e ∈ analyze_corr_edges n M t cols, e.asset1 = cols i ∧ e.asset2 = cols j) ↔
        corrGe (M i j) t = true)) ∧
    ((analyze_corr_edges n M t cols).map (fun e => (e.asset1, e.asset2))).Nodup ∧
    (∀ e ∈ analyze_corr_edges n M t cols, ∃ i j, i < j ∧ j < n ∧
      e.asset1 = cols i ∧ e.asset2 = cols j ∧ M i j = some e.correlation ∧
      e.abs_correlation = |e.correlation| ∧ t ≤ e.abs_correlation) ∧
    (analyze_corr_edges n M t cols).Pairwise
      (fun a b => b.abs_correlation ≤ a.abs_correlation) ∧
    (∀ k, (analyze_corr_edges n M t cols).filter (fun e => decide (e.abs_correlation = k)) =
      (highly_correlated n M t cols).filter (fun e => decide (e.abs_correlation = k))) ∧
    (highly_correlated n M t cols).Pairwise (fun a b => ∃ i j i' j',
      a.asset1 = cols i ∧ a.asset2 = cols j ∧ b.asset1 = cols i' ∧ b.asset2 = cols j' ∧
      (i < i' ∨ (i = i' ∧ j < j'))) := by
  have hperm := sortDesc_perm (fun e : CorrEdge α => e.abs_correlation)
    (highly_correlated n M t cols)
  refine ⟨?_, ?_, ?_, ?_, ?_, ?_⟩
  · intro i j hij hjn
    constructor
    · rintro ⟨e, he, h1', h2'⟩
      rcases mem_highly_correlated.mp (hperm.mem_iff.mp he) with
        ⟨i', j', hij', hjn', c, hM, hc, rfl⟩
      have : i' = i := hinj h1'
      subst this
      have : j' = j := hinj h2'
      subst this
      rw [corrGe.eq_def, hM]
      exact decide_eq_true hc
    · intro hge
      rw [corrGe.eq_def] at hge
      split at hge
      next c hM =>
        have hc : t ≤ |c| := of_decide_eq_true hge
        refine ⟨⟨cols i, cols j, c, |c|⟩, hperm.mem_iff.mpr ?_, rfl, rfl⟩
        exact mem_highly_correlated.mpr ⟨i, j, hij, hjn, c, hM, hc, rfl⟩
      next => cases hge
  · unfold analyze_corr_edges
    rw [(hperm.map (fun e => (e.asset1, e.asset2))).nodup_iff]
    rw [highly_correlated, List.map_filterMap]
    refine List.Nodup.filterMap ?_ (upperPairs_nodup n)
    rintro ⟨i, j⟩ ⟨i', j'⟩ b hb hb'
    have h1 : ∀ (p : Nat × Nat),
        b ∈ Option.map (fun e : CorrEdge α => (e.asset1, e.asset2)) (corrEdgeAt M t cols p) →
        b = (cols p.1, cols p.2) := by
      rintro p hp
      rcases Option.map_eq_some'.mp hp with ⟨e, he, rfl⟩
      rcases corrEdgeAt_eq_some.mp he with ⟨c, _, _, rfl⟩
      rfl
    have e1 := h1 _ hb
    have e2 := h1 _ hb'
    rw [e1] at e2
    have hfst : cols i = cols i' := congrArg Prod.fst e2
    have hsnd : cols j = cols j' := congrArg Prod.snd e2
    exact Prod.ext (hinj hfst) (hinj hsnd)
  · intro e he
    rcases mem_highly_correlated.mp (hperm.mem_iff.mp he) with
      ⟨i, j, hij, hjn, c, hM, hc, rfl⟩
    exact ⟨i, j, hij, hjn, rfl, rfl, hM, rfl, hc⟩
  · exact sortDesc_sorted _ _
  · intro k
    rw [analyze_corr_edges, sortDesc_filter_key]
  · rw [highly_correlated, List.pairwise_filterMap]
    refine (upperPairs_pairwise n).imp ?_
    rintro ⟨i, j⟩ ⟨i', j'⟩ hlex e he e' he'
    rcases corrEdgeAt_eq_some.mp he with ⟨c, _, _, rfl⟩
    rcases corrEdgeAt_eq_some.mp he' with ⟨c', _, _, rfl⟩
    exact ⟨i, j, i', j', rfl, rfl, rfl, rfl, hlex⟩

/-- Concrete instantiation of `correlation_graph_builder_spec` discharging its
hypotheses: identity labels are injective and the threshold `1/2` lies in
`[0,1]`. -/
theorem correlation_graph_builder_spec_witness :
    Function.Injective (fun i : Nat => i) ∧ ((0 : ℚ) ≤ 1/2) ∧ ((1/2 : ℚ) ≤ 1) ∧
      (analyze_corr_edges 3 (fun _ _ => some (9/10)) (1/2) (fun i : Nat => i)).Pairwise
        (fun a b => b.abs_correlation ≤ a.abs_correlation) := by
  have hinj : Function.Injective (fun i : Nat => i) := fun a b h => h
  have h0 : (0 : ℚ) ≤ 1/2 := by norm_num
  have h1 : (1/2 : ℚ) ≤ 1 := by norm_num
  exact ⟨hinj, h0, h1,
    (correlation_graph_builder_spec (fun i : Nat => i) hinj 3
      (fun _ _ => some (9/10)) (1/2) h0 h1).2.2.2.1⟩

theorem findGroupIdx_some {α : Type} [DecidableEq α] {a b : α} :
    ∀ {gs : List (Finset α)} {k : Nat}, findGroupIdx a b gs = some k →
      k < gs.length ∧ (a ∈ gs.getD k ∅ ∨ b ∈ gs.getD k ∅) ∧
        ∀ j, j < k → a ∉ gs.getD j ∅ ∧ b ∉ gs.getD j ∅ := by
  intro gs
  induction gs with
  | nil => intro k h; cases h
  | cons g gs ih =>
    intro k h
    by_cases hg : a ∈ g ∨ b ∈ g
    · rw [findGroupIdx, if_pos hg] at h
      cases h
      exact ⟨Nat.succ_pos _, hg, fun j hj => absurd hj (Nat.not_lt_zero j)⟩
    · rw [findGroupIdx, if_neg hg] at h
      rcases Option.map_eq_some'.mp h with ⟨k', hk', rfl⟩
      rcases ih hk' with ⟨hlen, hmem, hlt⟩
      refine ⟨Nat.succ_lt_succ hlen, hmem, ?_⟩
      intro j hj
      cases j with
      | zero => exact ⟨fun ha => hg (Or.inl ha), fun hb => hg (Or.inr hb)⟩
      | succ j' => exact hlt j' (Nat.lt_of_succ_lt_succ hj)

theorem findGroupIdx_none {α : Type} [DecidableEq α] {a b : α} :
    ∀ {gs : List (Finset α)}, findGroupIdx a b gs = none →
      ∀ g ∈ gs, a ∉ g ∧ b ∉ g := by
  intro gs
  induction gs with
  | nil => intro _ g hg; cases hg
  | cons g gs ih =>
    intro h g' hg'
    by_cases hg : a ∈ g ∨ b ∈ g
    · rw [findGroupIdx, if_pos hg] at h; cases h
    · rw [findGroupIdx, if_neg hg] at h
      rcases List.mem_cons.mp hg' with rfl | hg''
      · exact ⟨fun ha => hg (Or.inl ha), fun hb => hg (Or.inr hb)⟩
      · exact ih (Option.map_eq_none'.mp h) g' hg''

/-- C2: each edge `(a, b)` is merged into the first existing group (in
creation order) containing `a` or `b`, adding both endpoints; when both
endpoints already lie in different groups those groups are not merged (the
group count and all other groups are unchanged), which can under-merge
relative to true connected components; an edge touching no group opens a new
two-element group; edges are processed in the supplied order. -/
theorem fusion_merge_policy_spec {α : Type} [DecidableEq α]
    (gs : List (Finset α)) (a b : α) :
    (∀ k, findGroupIdx a b gs = some k →
      addEdge gs a b = gs.set k (insert a (insert b (gs.getD k ∅))) ∧
      (a ∈ gs.getD k ∅ ∨ b ∈ gs.getD k ∅) ∧
      (∀ j, j < k → a ∉ gs.getD j ∅ ∧ b ∉ gs.getD j ∅) ∧
      (addEdge gs a b).length = gs.length ∧
      (∀ j, j ≠ k → (addEdge gs a b)[j]? = gs[j]?)) ∧
    (findGroupIdx a b gs = none →
      (∀ g ∈ gs, a ∉ g ∧ b ∉ g) ∧ addEdge gs a b = gs ++ [{a, b}]) ∧
    (∀ (es : List (α × α)) (e : α × α),
      buildGroups (es ++ [e]) = addEdge (buildGroups es) e.1 e.2) ∧
    buildGroups [((0 : Nat), 1), (2, 3), (0, 2)] = [{0, 1, 2}, {2, 3}] := by
  refine ⟨?_, ?_, ?_, by decide⟩
  · intro k hk
    have heq : addEdge gs a b = gs.set k (insert a (insert b (gs.getD k ∅))) := by
      rw [addEdge, hk]
    rcases findGroupIdx_some hk with ⟨hlen, hmem, hlt⟩
    refine ⟨heq, hmem, hlt, ?_, ?_⟩
    · rw [heq, List.length_set]
    · intro j hj
      rw [heq, List.getElem?_set_ne (Ne.symm hj)]
  · intro h
    exact ⟨findGroupIdx_none h, by rw [addEdge, h]⟩
  · intro es e
    rw [buildGroups, buildGroups, List.foldl_append, List.foldl_cons, List.foldl_nil]

/-- Concrete instantiation of `fusion_merge_policy_spec`: merging edge
`(0, 2)` into `[{0,1}, {2,3}]` attaches both endpoints to the first group and
leaves the second group untouched. -/
theorem fusion_merge_policy_spec_witness :
    findGroupIdx (0 : Nat) 2 [({0, 1} : Finset Nat), {2, 3}] = some 0 ∧
      addEdge [({0, 1} : Finset Nat), {2, 3}] 0 2 =
        [({0, 1} : Finset Nat), {2, 3}].set 0
          (insert 0 (insert 2 ([({0, 1} : Finset Nat), {2, 3}].getD 0 ∅))) := by
  refine ⟨by decide, ?_⟩
  exact ((fusion_merge_policy_spec [({0, 1} : Finset Nat), {2, 3}] 0 2).1 0 (by decide)).1

theorem addEdge_mem_endpoint {α : Type} [DecidableEq α]
    {gs : List (Finset α)} {a b : α} {g : Finset α} (hg : g ∈ addEdge gs a b) :
    ∀ x ∈ g, (∃ g' ∈ gs, x ∈ g') ∨ x = a ∨ x = b := by
  intro x hx
  rw [addEdge] at hg
  cases hk : findGroupIdx a b gs with
  | none =>
    rw [hk] at hg
    rcases List.mem_append.mp hg with hg' | hg'
    · exact Or.inl ⟨g, hg', hx⟩
    · have : g = ({a, b} : Finset α) := List.mem_singleton.mp hg'
      subst this
      rcases Finset.mem_insert.mp hx with rfl | hx'
      · exact Or.inr (Or.inl rfl)
      · exact Or.inr (Or.inr (Finset.mem_singleton.mp hx'))
  | some k =>
    rw [hk] at hg
    rcases List.mem_or_eq_of_mem_set hg with hg' | rfl
    · exact Or.inl ⟨g, hg', hx⟩
    · rcases Finset.mem_insert.mp hx with rfl | hx'
      · exact Or.inr (Or.inl rfl)
      rcases Finset.mem_insert.mp hx' with rfl | hx''
      · exact Or.inr (Or.inr rfl)
      · have hklen := (findGroupIdx_some hk).1
        refine Or.inl ⟨gs.getD k ∅, ?_, hx''⟩
        rw [List.getD_eq_getElem?_getD, List.getElem?_eq_getElem hklen]
        exact List.getElem_mem hklen

theorem buildGroups_endpoints {α : Type} [DecidableEq α] (S : α → Prop) :
    ∀ (es : List (α × α)) (gs : List (Finset α)),
      (∀ g ∈ gs, ∀ x ∈ g, S x) → (∀ e ∈ es, S e.1 ∧ S e.2) →
      ∀ g ∈ es.foldl (fun gs e => addEdge gs e.1 e.2) gs, ∀ x ∈ g, S x := by
  intro es
  induction es with
  | nil => intro gs hgs _ g hg; exact hgs g hg
  | cons e es ih =>
    intro gs hgs hes g hg
    refine ih (addEdge gs e.1 e.2) ?_ (fun e' he' => hes e' (List.mem_cons_of_mem e he')) g hg
    intro g' hg' x hx
    rcases addEdge_mem_endpoint hg' x hx with ⟨g'', hg'', hx''⟩ | rfl | rfl
    · exact hgs g'' hg'' x hx''
    · exact (hes e (List.mem_cons_self e es)).1
    · exact (hes e (List.mem_cons_self e es)).2

theorem mem_buildGroups_endpoint {α : Type} [DecidableEq α]
    {es : List (α × α)} {g : Finset α} (hg : g ∈ buildGroups es) :
    ∀ x ∈ g, ∃ e ∈ es, x = e.1 ∨ x = e.2 := by
  refine buildGroups_endpoints (fun x => ∃ e ∈ es, x = e.1 ∨ x = e.2) es [] ?_ ?_ g hg
  · intro g' hg'; cases hg'
  · intro e he
    exact ⟨⟨e, he, Or.inl rfl⟩, ⟨e, he, Or.inr rfl⟩⟩

/-- C3: every emitted cluster has size ≥ 2 and strength `"high"` iff size ≥ 3
(`"medium"` otherwise); every clustered asset is an endpoint of an input edge
of the matching origin tag; correlation-derived clusters precede flow-derived
ones, each block in group-creation order; empty inputs give an empty output. -/
theorem fusion_cluster_invariants {α : Type} [DecidableEq α]
    (ce te : List (α × α)) :
    (∀ c ∈ find_asset_combinations ce te,
      2 ≤ c.size ∧ c.size = c.assets.card ∧
      (c.strength = "high" ↔ 3 ≤ c.size) ∧ (c.strength = "medium" ↔ c.size < 3) ∧
      (c.ctype = "correlation_based" ∨ c.ctype = "te_based")) ∧
    (∀ c ∈ find_asset_combinations ce te, c.ctype = "correlation_based" →
      ∀ x ∈ c.assets, ∃ e ∈ ce, x = e.1 ∨ x = e.2) ∧
    (∀ c ∈ find_asset_combinations ce te, c.ctype = "te_based" →
      ∀ x ∈ c.assets, ∃ e ∈ te, x = e.1 ∨ x = e.2) ∧
    ((find_asset_combinations ce te).filter
        (fun c => decide (c.ctype = "correlation_based"))).map (fun c => c.assets) =
      (buildGroups ce).filter (fun g => decide (2 ≤ g.card)) ∧
    ((find_asset_combinations ce te).filter
        (fun c => decide (c.ctype = "te_based"))).map (fun c => c.assets) =
      (buildGroups te).filter (fun g => decide (2 ≤ g.card)) ∧
    find_asset_combinations ce te =
      (find_asset_combinations ce te).filter
          (fun c => decide (c.ctype = "correlation_based"))
        ++ (find_asset_combinations ce te).filter
          (fun c => decide (c.ctype = "te_based")) ∧
    (ce = [] → te = [] → find_asset_combinations ce te = []) := by
  have hsize : ∀ (t : String) (g : Finset α), (mkCluster t g).size = g.card := fun _ _ => rfl
  have hmem : ∀ c ∈ find_asset_combinations ce te,
      (c.ctype = "correlation_based" ∧
        ∃ g ∈ (buildGroups ce).filter (fun g => decide (2 ≤ g.card)),
          c = mkCluster "correlation_based" g) ∨
      (c.ctype = "te_based" ∧
        ∃ g ∈ (buildGroups te).filter (fun g => decide (2 ≤ g.card)),
          c = mkCluster "te_based" g) := by
    intro c hc
    rcases List.mem_append.mp hc with hc' | hc'
    · rcases List.mem_map.mp hc' with ⟨g, hg, rfl⟩
      exact Or.inl ⟨rfl, g, hg, rfl⟩
    · rcases List.mem_map.mp hc' with ⟨g, hg, rfl⟩
      exact Or.inr ⟨rfl, g, hg, rfl⟩
  have corr_eq : (find_asset_combinations ce te).filter
        (fun c => decide (c.ctype = "correlation_based")) =
      ((buildGroups ce).filter (fun g => decide (2 ≤ g.card))).map
        (mkCluster "correlation_based") := by
    rw [find_asset_combinations, List.filter_append]
    have h1 : (((buildGroups ce).filter (fun g => decide (2 ≤ g.card))).map
          (mkCluster "correlation_based")).filter
          (fun c => decide (c.ctype = "correlation_based")) =
        ((buildGroups ce).filter (fun g => decide (2 ≤ g.card))).map
          (mkCluster "correlation_based") := by
      rw [List.filter_eq_self]
      intro c hc
      rcases List.mem_map.mp hc with ⟨g, _, rfl⟩
      exact decide_eq_true rfl
    have h2 : (((buildGroups te).filter (fun g => decide (2 ≤ g.card))).map
          (mkCluster "te_based")).filter
          (fun c => decide (c.ctype = "correlation_based")) = [] := by
      rw [List.filter_eq_nil_iff]
      intro c hc
      rcases List.mem_map.mp hc with ⟨g, _, rfl⟩
      simp [mkCluster]
    rw [h1, h2, List.append_nil]
  have te_eq : (find_asset_combinations ce te).filter
        (fun c => decide (c.ctype = "te_based")) =
      ((buildGroups te).filter (fun g => decide (2 ≤ g.card))).map
        (mkCluster "te_based") := by
    rw [find_asset_combinations, List.filter_append]
    have h1 : (((buildGroups ce).filter (fun g => decide (2 ≤ g.card))).map
          (mkCluster "correlation_based")).filter
          (fun c => decide (c.ctype = "te_based")) = [] := by
      rw [List.filter_eq_nil_iff]
      intro c hc
      rcases List.mem_map.mp hc with ⟨g, _, rfl⟩
      simp [mkCluster]
    have h2 : (((buildGroups te).filter (fun g => decide (2 ≤ g.card))).map
          (mkCluster "te_based")).filter
          (fun c => decide (c.ctype = "te_based")) =
        ((buildGroups te).filter (fun g => decide (2 ≤ g.card))).map
          (mkCluster "te_based") := by
      rw [List.filter_eq_self]
      intro c hc
      rcases List.mem_map.mp hc with ⟨g, _, rfl⟩
      exact decide_eq_true rfl
    rw [h1, h2, List.nil_append]
  have massets : ∀ (s : String) (l : List (Finset α)),
      (l.map (mkCluster s)).map (fun c => c.assets) = l := by
    intro s l
    rw [List.map_map]
    have : ((fun c : AssetCluster α => c.assets) ∘ mkCluster s) = id := by
      funext g; rfl
    rw [this, List.map_id]
  refine ⟨?_, ?_, ?_, ?_, ?_, ?_, ?_⟩
  · intro c hc
    have hstr : ∀ g : Finset α, 2 ≤ g.card →
        2 ≤ (g.card) ∧ (g.card) = g.card ∧
        ((if 3 ≤ g.card then "high" else "medium") = "high" ↔ 3 ≤ g.card) ∧
        ((if 3 ≤ g.card then "high" else "medium") = "medium" ↔ g.card < 3) := by
      intro g hg
      by_cases h3 : 3 ≤ g.card
      · rw [if_pos h3]
        exact ⟨hg, rfl, ⟨fun _ => h3, fun _ => rfl⟩,
          ⟨fun h => absurd h (by decide), fun h => absurd h3 (by omega)⟩⟩
      · rw [if_neg h3]
        exact ⟨hg, rfl, ⟨fun h => absurd h (by decide), fun h => absurd h h3⟩,
          ⟨fun _ => by omega, fun _ => rfl⟩⟩
    rcases hmem c hc with ⟨hct, g, hg, rfl⟩ | ⟨hct, g, hg, rfl⟩ <;>
      rcases List.mem_filter.mp hg with ⟨_, hcard⟩
    · rcases hstr g (of_decide_eq_true hcard) with ⟨ha, hb, hc', hd⟩
      exact ⟨ha, hb, hc', hd, Or.inl rfl⟩
    · rcases hstr g (of_decide_eq_true hcard) with ⟨ha, hb, hc', hd⟩
      exact ⟨ha, hb, hc', hd, Or.inr rfl⟩
  · intro c hc hct x hx
    rcases hmem c hc with ⟨_, g, hg, rfl⟩ | ⟨hct', g, hg, rfl⟩
    · exact mem_buildGroups_endpoint (List.mem_filter.mp hg).1 x hx
    · exact absurd hct (by rw [hct']; decide)
  · intro c hc hct x hx
    rcases hmem c hc with ⟨hct', g, hg, rfl⟩ | ⟨_, g, hg, rfl⟩
    · exact absurd hct (by rw [hct']; decide)
    · exact mem_buildGroups_endpoint (List.mem_filter.mp hg).1 x hx
  · rw [corr_eq, massets]
  · rw [te_eq, massets]
  · rw [corr_eq, te_eq]; rfl
  · rintro rfl rfl; rfl

/-- Concrete instantiation of `fusion_cluster_invariants`: with no input
edges of either kind the fusion engine emits no clusters. -/
theorem fusion_cluster_invariants_witness :
    find_asset_combinations ([] : List (Nat × Nat)) [] = [] :=
  (fusion_cluster_invariants ([] : List (Nat × Nat)) []).2.2.2.2.2.2 rfl rfl

/-- C4: the adapter retains exactly the oracle edges with
`strength >= strength_threshold`, sorted descending by strength with ties in
oracle order (stable sort); the optional significance value is carried
through unmodified and never used to exclude an edge; an empty oracle result
yields an empty sequence. -/
theorem flow_adapter_spec {α : Type} (cols : Nat → α) (edges : List RawEdge)
    (thr : ℚ) :
    (te_connections cols edges thr).Perm
      ((edges.filter (fun e => decide (thr ≤ e.strength))).map (mkConn cols)) ∧
    (te_connections cols edges thr).Pairwise
      (fun a b => b.transfer_entropy ≤ a.transfer_entropy) ∧
    (∀ k, (te_connections cols edges thr).filter
        (fun c => decide (c.transfer_entropy = k)) =
      ((edges.filter (fun e => decide (thr ≤ e.strength))).map (mkConn cols)).filter
        (fun c => decide (c.transfer_entropy = k))) ∧
    (∀ c ∈ te_connections cols edges thr,
      ∃ e ∈ edges, thr ≤ e.strength ∧ c = mkConn cols e) ∧
    (∀ e ∈ edges, thr ≤ e.strength → mkConn cols e ∈ te_connections cols edges thr) ∧
    te_connections cols [] thr = [] := by
  have hperm := sortDesc_perm (fun c : FlowConn α => c.transfer_entropy)
    ((edges.filter (fun e => decide (thr ≤ e.strength))).map (mkConn cols))
  refine ⟨hperm, sortDesc_sorted _ _, ?_, ?_, ?_, rfl⟩
  · intro k
    rw [te_connections, sortDesc_filter_key]
  · intro c hc
    rcases List.mem_map.mp (hperm.mem_iff.mp hc) with ⟨e, he, rfl⟩
    rcases List.mem_filter.mp he with ⟨he', hs⟩
    exact ⟨e, he', of_decide_eq_true hs, rfl⟩
  · intro e he hs
    refine hperm.mem_iff.mpr (List.mem_map.mpr ⟨e, ?_, rfl⟩)
    exact List.mem_filter.mpr ⟨he, decide_eq_true hs⟩

/-- Concrete instantiation of `flow_adapter_spec`: an empty oracle edge list
is returned as an empty sequence, not an error. -/
theorem flow_adapter_spec_witness :
    te_connections (fun i : Nat => i) [] (1/20) = [] :=
  (flow_adapter_spec (fun i : Nat => i) [] (1/20)).2.2.2.2.2

/-- C8: with a single-asset universe the density denominator `1·0/2` is zero;
the resulting `ZeroDivisionError` is caught, `analyze_correlation_network`
returns the empty dict, and the summary is still produced with density `0`
(not NaN, not a crash). -/
theorem single_asset_density_zero {α : Type} [DecidableEq α] (cols : Nat → α)
    (M : Nat → Nat → Option ℚ) (corr_thr : ℚ) (nr : Option (List RawEdge))
    (te_thr : ℚ) :
    analyze_correlation_network 1 M corr_thr cols = none ∧
    (identify_highly_correlated_assets cols 1 M corr_thr nr te_thr).summary_network_density = 0 ∧
    (identify_highly_correlated_assets cols 1 M corr_thr nr te_thr).summary_total_assets = 1 ∧
    (identify_highly_correlated_assets cols 1 M corr_thr nr te_thr).correlation_pairs = [] ∧
    (identify_highly_correlated_assets cols 1 M corr_thr nr te_thr).summary_highly_correlated_pairs = 0 := by
  have hnone : analyze_correlation_network 1 M corr_thr cols = none := by
    rw [analyze_correlation_network]
    norm_num
  refine ⟨hnone, ?_, rfl, ?_, ?_⟩ <;>
    simp only [identify_highly_correlated_assets, hnone, List.length_nil]

/-- C10: when the transfer-entropy analysis has not run
(`network_results is None`), the pipeline still succeeds: `te_connections` is
empty, its summary count is `0`, and the whole result coincides with a run on
an empty oracle edge list. -/
theorem no_te_results_ok {α : Type} [DecidableEq α] (cols : Nat → α) (n : Nat)
    (M : Nat → Nat → Option ℚ) (corr_thr te_thr : ℚ) :
    (identify_highly_correlated_assets cols n M corr_thr none te_thr).te_connections = [] ∧
    (identify_highly_correlated_assets cols n M corr_thr none te_thr).summary_te_connections = 0 ∧
    identify_highly_correlated_assets cols n M corr_thr none te_thr =
      identify_highly_correlated_assets cols n M corr_thr (some []) te_thr :=
  ⟨rfl, rfl, rfl⟩

/-- Faithfulness of the square-free outlier mask: for a nonnegative standard
deviation `σ` with `σ^2` the column variance, `x^2 < 9*var` is exactly the
Python comparison `abs(x) < 3*σ`. -/
theorem clip_mask_faithful {K : Type} [LinearOrderedField K] (x σ : K)
    (hσ : 0 ≤ σ) (r : List K) (hσsq : σ ^ 2 = sampleVar r) :
    (x ^ 2 < 9 * sampleVar r ↔ |x| < 3 * σ) := by
  rw [← hσsq]
  have h9 : 9 * σ ^ 2 = (3 * σ) ^ 2 := by ring
  rw [h9, ← sq_abs x]
  exact pow_lt_pow_iff_left₀ (abs_nonneg x) (by positivity) (by norm_num)

theorem pct_change_col_length {K : Type} [LinearOrderedField K] (p : List K) :
    (pct_change_col p).length = p.length - 1 := by
  rw [pct_change_col, List.length_map, List.length_zip, List.length_tail]
  omega

theorem clip_col_length {K : Type} [LinearOrderedField K] (r : List K) :
    (clip_col r).length = r.length := by
  rw [clip_col, List.length_map]

theorem standardize_col_length {K : Type} [LinearOrderedField K]
    (σf : List K → K) (c : List (Option K)) :
    (standardize_col σf c).length = c.length := by
  rw [standardize_col, List.length_map]

theorem map_bind_none {K : Type} (c : List (Option K)) (f : K → Option K)
    (hf : ∀ x, f x = none) :
    c.map (fun o => o.bind f) = List.replicate c.length none := by
  induction c with
  | nil => rfl
  | cons o c ih =>
    cases o <;> simp [List.replicate_succ, ih, hf]

/-- A column whose surviving values number fewer than two or have zero sample
variance is standardized to an all-NaN column (0/0 and x/NaN are NaN in
pandas); no exception is raised. -/
theorem standardize_col_degenerate {K : Type} [LinearOrderedField K]
    (σf : List K → K) (c : List (Option K))
    (h : ¬(2 ≤ (c.filterMap id).length ∧ sampleVar (c.filterMap id) ≠ 0)) :
    standardize_col σf c = List.replicate c.length none := by
  rw [standardize_col]
  exact map_bind_none c _ (fun x => if_neg h)

theorem standardize_col_pos {K : Type} [LinearOrderedField K]
    (σf : List K → K) (c : List (Option K))
    (h2 : 2 ≤ (c.filterMap id).length) (hv : sampleVar (c.filterMap id) ≠ 0) :
    standardize_col σf c = c.map (fun o => o.bind (fun x =>
      some ((x - sampleMean (c.filterMap id)) / σf (c.filterMap id)))) := by
  rw [standardize_col]
  have : (fun x : K =>
      if 2 ≤ (c.filterMap id).length ∧ sampleVar (c.filterMap id) ≠ 0 then
        some ((x - sampleMean (c.filterMap id)) / σf (c.filterMap id))
      else none) = (fun x : K =>
        some ((x - sampleMean (c.filterMap id)) / σf (c.filterMap id))) :=
    funext fun x => if_pos ⟨h2, hv⟩
  rw [this]

theorem filterMap_id_map_bind_some {K : Type} (c : List (Option K)) (g : K → K) :
    (c.map (fun o => o.bind (fun x => some (g x)))).filterMap id =
      (c.filterMap id).map g := by
  induction c with
  | nil => rfl
  | cons o c ih =>
    cases o <;> simp [List.filterMap_cons, ih]

theorem sum_map_sub_const {K : Type} [LinearOrderedField K] (l : List K) (m : K) :
    (l.map (fun x => x - m)).sum = l.sum - (l.length : K) * m := by
  induction l with
  | nil => simp
  | cons x xs ih =>
    simp only [List.map_cons, List.sum_cons, ih, List.length_cons]
    push_cast
    ring

theorem sum_map_div {K : Type} [LinearOrderedField K] (l : List K) (f : K → K)
    (b : K) : (l.map (fun x => f x / b)).sum = (l.map f).sum / b := by
  simp only [div_eq_mul_inv]
  exact List.sum_map_mul_right l f b⁻¹

theorem standardized_mean_zero {K : Type} [LinearOrderedField K] (l : List K)
    (h2 : 2 ≤ l.length) (σ : K) :
    sampleMean (l.map (fun x => (x - sampleMean l) / σ)) = 0 := by
  have hn : ((l.length : K)) ≠ 0 := by
    have : 0 < l.length := by omega
    exact ne_of_gt (by exact_mod_cast this)
  rw [sampleMean, List.length_map, sum_map_div l (fun x => x - sampleMean l) σ,
    sum_map_sub_const, sampleMean, mul_div_cancel₀ _ hn, sub_self, zero_div,
    zero_div]

theorem standardized_var_one {K : Type} [LinearOrderedField K] (l : List K)
    (h2 : 2 ≤ l.length) (σ : K) (hσsq : σ ^ 2 = sampleVar l)
    (hv : sampleVar l ≠ 0) :
    sampleVar (l.map (fun x => (x - sampleMean l) / σ)) = 1 := by
  have hσ : σ ≠ 0 := by
    intro h
    rw [h] at hσsq
    exact hv (by rw [← hσsq]; ring)
  have hn1 : ((l.length : K) - 1) ≠ 0 := by
    have : (2 : K) ≤ (l.length : K) := by exact_mod_cast h2
    intro h
    have : (l.length : K) = 1 := by linarith
    linarith
  have hmean := standardized_mean_zero l h2 σ
  rw [sampleVar, List.length_map]
  simp only [hmean, sub_zero, List.map_map]
  have hcomp : ((fun y : K => y ^ 2) ∘ fun x => (x - sampleMean l) / σ) =
      fun x => ((x - sampleMean l) ^ 2) / σ ^ 2 :=
    funext fun x => by simp [Function.comp, div_pow]
  rw [hcomp]
  rw [sum_map_div l (fun x => (x - sampleMean l) ^ 2) (σ ^ 2)]
  rw [div_div, mul_comm, ← div_div]
  have hvar : ((l.map (fun x => (x - sampleMean l) ^ 2)).sum) / ((l.length : K) - 1) =
      sampleVar l := rfl
  rw [hvar, ← hσsq]
  exact div_self (by intro h; exact hσ (by exact pow_eq_zero_iff (by norm_num) |>.mp h))

/-- C5 counterexample: the claim says a produced return matrix contains no
missing values (rows with a failing clip test are dropped), but on the price
column `[1, 2, 4, 8]` (constant returns `[1, 1, 1]`, zero variance, so
`abs(r) < 3*std` is false everywhere) the elementwise mask turns every cell
into NaN and the cells remain in the matrix. -/
theorem return_matrix_missing_values_cex :
    (preprocess_data (fun _ => (0 : ℚ)) [[1, 2, 4, 8]]).any
      (fun col => col.any (fun o => o.isNone)) = true := by
  norm_num [preprocess_data, standardize_col, clip_col, pct_change_col,
    sampleVar, sampleMean, List.filterMap_cons, List.zip, List.zipWith]

/-- C5 (amended): clipped cells become NaN in place and rows are kept, so the
matrix may contain missing values; each column is standardized with
NaN-skipping statistics, and whenever its surviving values number at least
two with nonzero sample variance (`σf` their standard deviation), they end up
with mean exactly 0 and sample variance exactly 1. -/
theorem return_matrix_standardization_spec {K : Type} [LinearOrderedField K]
    (σf : List K → K) (tbl : List (List K)) (p : List K) (hp : p ∈ tbl)
    (h2 : 2 ≤ ((clip_col (pct_change_col p)).filterMap id).length)
    (hv : sampleVar ((clip_col (pct_change_col p)).filterMap id) ≠ 0)
    (hσ : (σf ((clip_col (pct_change_col p)).filterMap id)) ^ 2 =
      sampleVar ((clip_col (pct_change_col p)).filterMap id)) :
    standardize_col σf (clip_col (pct_change_col p)) ∈ preprocess_data σf tbl ∧
    (standardize_col σf (clip_col (pct_change_col p))).length =
      (pct_change_col p).length ∧
    sampleMean ((standardize_col σf (clip_col (pct_change_col p))).filterMap id) = 0 ∧
    sampleVar ((standardize_col σf (clip_col (pct_change_col p))).filterMap id) = 1 := by
  refine ⟨?_, ?_, ?_, ?_⟩
  · rw [preprocess_data]
    exact List.mem_map_of_mem _ hp
  · rw [standardize_col_length, clip_col_length]
  · rw [standardize_col_pos σf _ h2 hv, filterMap_id_map_bind_some]
    exact standardized_mean_zero _ h2 _
  · rw [standardize_col_pos σf _ h2 hv, filterMap_id_map_bind_some]
    exact standardized_var_one _ h2 _ hσ hv

/-- Concrete instantiation of `return_matrix_standardization_spec`: prices
`[1, 1, 2, 6]` give returns `[0, 1, 2]`, nothing is clipped, the surviving
values have sample variance 1 (standard deviation 1), and the standardized
column has mean 0. -/
theorem return_matrix_standardization_spec_witness :
    [(1 : ℚ), 1, 2, 6] ∈ [[(1 : ℚ), 1, 2, 6]] ∧
    2 ≤ ((clip_col (pct_change_col [(1 : ℚ), 1, 2, 6])).filterMap id).length ∧
    sampleVar ((clip_col (pct_change_col [(1 : ℚ), 1, 2, 6])).filterMap id) ≠ 0 ∧
    ((fun _ : List ℚ => (1 : ℚ)) ((clip_col (pct_change_col [(1 : ℚ), 1, 2, 6])).filterMap id)) ^ 2 =
      sampleVar ((clip_col (pct_change_col [(1 : ℚ), 1, 2, 6])).filterMap id) ∧
    sampleMean ((standardize_col (fun _ : List ℚ => (1 : ℚ))
      (clip_col (pct_change_col [(1 : ℚ), 1, 2, 6]))).filterMap id) = 0 := by
  have hev : (clip_col (pct_change_col [(1 : ℚ), 1, 2, 6])).filterMap id = [0, 1, 2] := by
    norm_num [clip_col, pct_change_col, sampleVar, sampleMean, List.filterMap_cons,
      List.zip, List.zipWith]
  have hp : [(1 : ℚ), 1, 2, 6] ∈ [[(1 : ℚ), 1, 2, 6]] := List.mem_singleton.mpr rfl
  have h2 : 2 ≤ ((clip_col (pct_change_col [(1 : ℚ), 1, 2, 6])).filterMap id).length := by
    rw [hev]; norm_num
  have hv : sampleVar ((clip_col (pct_change_col [(1 : ℚ), 1, 2, 6])).filterMap id) ≠ 0 := by
    rw [hev]; norm_num [sampleVar, sampleMean]
  have hσ : ((fun _ : List ℚ => (1 : ℚ))
      ((clip_col (pct_change_col [(1 : ℚ), 1, 2, 6])).filterMap id)) ^ 2 =
      sampleVar ((clip_col (pct_change_col [(1 : ℚ), 1, 2, 6])).filterMap id) := by
    rw [hev]; norm_num [sampleVar, sampleMean]
  exact ⟨hp, h2, hv, hσ,
    (return_matrix_standardization_spec (fun _ : List ℚ => (1 : ℚ))
      [[(1 : ℚ), 1, 2, 6]] [(1 : ℚ), 1, 2, 6] hp h2 hv hσ).2.2.1⟩

/-- C6 counterexample: the claim says preprocessing fails with
`InsufficientDataError` on fewer than 2 assets, but no such check or
exception class exists; a single-asset table is processed to a fully defined
2×1 matrix. -/
theorem insufficient_data_no_error_cex :
    (preprocess_data (fun _ => (0 : ℚ)) [[1, 2, 3]]).map
      (fun col => col.map Option.isSome) = [[true, true]] := by
  norm_num [preprocess_data, standardize_col, clip_col, pct_change_col,
    sampleVar, sampleMean, List.filterMap_cons, List.zip, List.zipWith]

/-- C6 (amended): `_preprocess_data` performs no minimum-size check and never
raises; on any input (however few assets or observations) it returns a matrix
with one column per input asset and one row fewer than the input (the
`pct_change` row dropped by `dropna`). -/
theorem preprocess_total_shape {K : Type} [LinearOrderedField K]
    (σf : List K → K) (tbl : List (List K)) :
    (preprocess_data σf tbl).length = tbl.length ∧
    (preprocess_data σf tbl).map List.length = tbl.map (fun p => p.length - 1) := by
  constructor
  · rw [preprocess_data, List.length_map]
  · rw [preprocess_data, List.map_map]
    refine List.map_congr_left ?_
    intro p _
    simp only [Function.comp]
    rw [standardize_col_length, clip_col_length, pct_change_col_length]

/-- C7 counterexample: the claim says a zero-variance column (after clipping)
raises `DegenerateSeriesError`, but no such class or raise exists; on prices
`[1, 2, 2, ..., 2]` the lone return `1` is clipped (its square equals
`9*var`), the nine surviving returns are all `0` with zero variance, and the
column silently becomes all-NaN. -/
theorem degenerate_column_no_error_cex :
    preprocess_data (fun _ => (0 : ℚ)) [[1, 2, 2, 2, 2, 2, 2, 2, 2, 2]] =
      [List.replicate 9 none] := by
  norm_num [preprocess_data, standardize_col, clip_col, pct_change_col,
    sampleVar, sampleMean, List.filterMap_cons, List.zip, List.zipWith,
    List.replicate]

/-- C7 (amended): a column whose post-clip surviving values have zero sample
variance is standardized to an all-missing column of unchanged length, and
the run continues with no exception. -/
theorem degenerate_column_all_missing {K : Type} [LinearOrderedField K]
    (σf : List K → K) (tbl : List (List K)) (p : List K) (hp : p ∈ tbl)
    (hv : sampleVar ((clip_col (pct_change_col p)).filterMap id) = 0) :
    List.replicate (pct_change_col p).length (none : Option K) ∈
      preprocess_data σf tbl := by
  have hdeg : standardize_col σf (clip_col (pct_change_col p)) =
      List.replicate (clip_col (pct_change_col p)).length none :=
    standardize_col_degenerate σf _ (fun h => h.2 hv)
  rw [preprocess_data]
  have hmem : standardize_col σf (clip_col (pct_change_col p)) ∈
      tbl.map (fun q => standardize_col σf (clip_col (pct_change_col q))) :=
    List.mem_map_of_mem _ hp
  rw [hdeg, clip_col_length] at hmem
  exact hmem

/-- Concrete instantiation of `degenerate_column_all_missing`: prices
`[1, 2, 4, 8]` have constant returns, everything is clipped, the surviving
values are empty with sample variance 0, and the all-NaN column of length 3
is in the output. -/
theorem degenerate_column_all_missing_witness :
    sampleVar ((clip_col (pct_change_col [(1 : ℚ), 2, 4, 8])).filterMap id) = 0 ∧
    List.replicate (pct_change_col [(1 : ℚ), 2, 4, 8]).length (none : Option ℚ) ∈
      preprocess_data (fun _ => (0 : ℚ)) [[(1 : ℚ), 2, 4, 8]] := by
  have hv : sampleVar ((clip_col (pct_change_col [(1 : ℚ), 2, 4, 8])).filterMap id) = 0 := by
    norm_num [clip_col, pct_change_col, sampleVar, sampleMean, List.filterMap_cons,
      List.zip, List.zipWith]
  exact ⟨hv, degenerate_column_all_missing (fun _ => (0 : ℚ)) [[(1 : ℚ), 2, 4, 8]]
    [(1 : ℚ), 2, 4, 8] (List.mem_singleton.mpr rfl) hv⟩

/-! ### Error propagation (C9) -/
/-- C9 counterexample: the claim says stage errors are surfaced to the caller
and never converted into empty results, and that an empty edge set implies no
error.  With a single asset the correlation stage raises internally
(`ZeroDivisionError` on the density denominator), the `except` branch turns
this into the empty dict (`none`) instead of propagating, and the assembled
results carry an empty `correlation_pairs` even though an error occurred. -/
theorem error_downgraded_to_empty_cex :
    analyze_correlation_network 1 (fun _ _ => some 1) (3/5) (fun i : Nat => i) = none ∧
    (identify_highly_correlated_assets (fun i : Nat => i) 1 (fun _ _ => some 1)
      (3/5) none (1/20)).correlation_pairs = [] := by
  have hnone : analyze_correlation_network 1 (fun _ _ => some 1) (3/5)
      (fun i : Nat => i) = none := by
    rw [analyze_correlation_network]
    norm_num
  refine ⟨hnone, ?_⟩
  simp only [identify_highly_correlated_assets, hnone]

/-- C9 (amended): `analyze_correlation_network` catches its own exceptions
and returns the empty dict: the caller receives `none` exactly when the stage
errored (density denominator zero, i.e. fewer than two assets); a successful
run always returns a populated record — with an empty pair list when nothing
passes the threshold — so at that boundary the empty dict is distinguishable
from a legitimately empty result; downstream, `correlation_pairs` is empty
either on stage error or on a legitimately empty edge set, so an empty edge
sequence does not imply the absence of an error. -/
theorem error_result_characterization {α : Type} [DecidableEq α]
    (cols : Nat → α) (n : Nat) (M : Nat → Nat → Option ℚ) (t : ℚ)
    (nr : Option (List RawEdge)) (tt : ℚ) :
    (analyze_correlation_network n M t cols = none ↔ n ≤ 1) ∧
    (2 ≤ n → analyze_correlation_network n M t cols =
      some ⟨analyze_corr_edges n M t cols,
        ((analyze_corr_edges n M t cols).length : ℚ) /
          (((n : ℚ) * ((n : ℚ) - 1)) / 2)⟩) ∧
    ((identify_highly_correlated_assets cols n M t nr tt).correlation_pairs = [] ↔
      (n ≤ 1 ∨ analyze_corr_edges n M t cols = [])) := by
  have hdenom : ((((n : ℚ) * ((n : ℚ) - 1)) / 2 = 0) ↔ n ≤ 1) := by
    rw [div_eq_zero_iff]
    constructor
    · rintro (h | h)
      · rcases mul_eq_zero.mp h with h' | h'
        · have : n = 0 := Nat.cast_eq_zero.mp h'
          omega
        · have hone : (n : ℚ) = 1 := by linarith
          have : n = 1 := Nat.cast_eq_one.mp hone
          omega
      · norm_num at h
    · intro h
      rcases (by omega : n = 0 ∨ n = 1) with rfl | rfl <;> norm_num
  have h1 : analyze_correlation_network n M t cols = none ↔ n ≤ 1 := by
    rw [analyze_correlation_network]
    by_cases hd : ((((n : ℚ) * ((n : ℚ) - 1)) / 2) = 0)
    · rw [if_pos hd]
      simp [hdenom.mp hd]
    · rw [if_neg hd]
      have hn : ¬ n ≤ 1 := fun h => hd (hdenom.mpr h)
      simp [hn]
  have h2 : 2 ≤ n → analyze_correlation_network n M t cols =
      some ⟨analyze_corr_edges n M t cols,
        ((analyze_corr_edges n M t cols).length : ℚ) /
          (((n : ℚ) * ((n : ℚ) - 1)) / 2)⟩ := by
    intro h2n
    rw [analyze_correlation_network, if_neg (fun hd => by
      have := hdenom.mp hd; omega)]
  refine ⟨h1, h2, ?_⟩
  by_cases hn : n ≤ 1
  · have hnone := h1.mpr hn
    simp only [identify_highly_correlated_assets, hnone]
    simp [hn]
  · have hsome := h2 (by omega)
    simp only [identify_highly_correlated_assets, hsome]
    simp [hn]

/-- Concrete instantiation of `error_result_characterization`: with two
assets the correlation stage succeeds and returns a populated record. -/
theorem error_result_characterization_witness :
    2 ≤ 2 ∧ analyze_correlation_network 2 (fun _ _ => some (7/10)) (3/5)
        (fun i : Nat => i) =
      some ⟨analyze_corr_edges 2 (fun _ _ => some (7/10)) (3/5) (fun i : Nat => i),
        ((analyze_corr_edges 2 (fun _ _ => some (7/10)) (3/5)
            (fun i : Nat => i)).length : ℚ) /
          ((((2 : Nat) : ℚ) * (((2 : Nat) : ℚ) - 1)) / 2)⟩ :=
  ⟨le_refl 2, (error_result_characterization (fun i : Nat => i) 2
    (fun _ _ => some (7/10)) (3/5) none (1/20)).2.1 (le_refl 2)⟩

end CryptoNet
